import Mathlib

set_option autoImplicit false

/-!
Shallow embedding of the Canadian-equity-dashboard pipeline
(`src/dashboard.py` together with its CLI wrapper `scripts/run_dashboard.py`).

Python floats are modelled by `PyNum`: a finite value carried exactly as a
rational, the two infinities, or NaN.  This keeps the NaN/infinity corner
cases of pandas/numpy faithful while replacing IEEE rounding with exact
arithmetic.  Python strings are modelled as lists of characters (`PyStr`),
with `strip`/`upper` modelled on the ASCII range used by ticker symbols.
Dates are modelled as integers (day numbers): `pd.to_datetime(..., errors
= "coerce")` yields `Option ℤ` with `none` for NaT, and subtracting two
dates yields the day count used by the CAGR computation.
-/

abbrev PyStr := List Char

def pstr (s : String) : PyStr := s.toList

/-- Model of a Python/numpy double: a finite value (exact rational), one of
the two infinities, or NaN. -/
inductive PyNum where
  | num : ℚ → PyNum
  | pinf : PyNum
  | ninf : PyNum
  | nan : PyNum
deriving DecidableEq

def pyIsNan : PyNum → Bool
  | .nan => true
  | _ => false

def pyAdd : PyNum → PyNum → PyNum
  | .nan, _ => .nan
  | .num _, .nan => .nan
  | .pinf, .nan => .nan
  | .ninf, .nan => .nan
  | .num a, .num b => .num (a + b)
  | .num _, .pinf => .pinf
  | .num _, .ninf => .ninf
  | .pinf, .num _ => .pinf
  | .ninf, .num _ => .ninf
  | .pinf, .pinf => .pinf
  | .ninf, .ninf => .ninf
  | .pinf, .ninf => .nan
  | .ninf, .pinf => .nan

def pyNeg : PyNum → PyNum
  | .num a => .num (-a)
  | .pinf => .ninf
  | .ninf => .pinf
  | .nan => .nan

def pySub (a b : PyNum) : PyNum := pyAdd a (pyNeg b)

def pyMul : PyNum → PyNum → PyNum
  | .nan, _ => .nan
  | .num _, .nan => .nan
  | .pinf, .nan => .nan
  | .ninf, .nan => .nan
  | .num a, .num b => .num (a * b)
  | .num a, .pinf => if a = 0 then .nan else if 0 < a then .pinf else .ninf
  | .num a, .ninf => if a = 0 then .nan else if 0 < a then .ninf else .pinf
  | .pinf, .num a => if a = 0 then .nan else if 0 < a then .pinf else .ninf
  | .ninf, .num a => if a = 0 then .nan else if 0 < a then .ninf else .pinf
  | .pinf, .pinf => .pinf
  | .pinf, .ninf => .ninf
  | .ninf, .pinf => .ninf
  | .ninf, .ninf => .pinf

def pyDiv : PyNum → PyNum → PyNum
  | .nan, _ => .nan
  | .num _, .nan => .nan
  | .pinf, .nan => .nan
  | .ninf, .nan => .nan
  | .num a, .num b =>
      if b = 0 then (if a = 0 then .nan else if 0 < a then .pinf else .ninf)
      else .num (a / b)
  | .num _, .pinf => .num 0
  | .num _, .ninf => .num 0
  | .pinf, .num b => if 0 ≤ b then .pinf else .ninf
  | .ninf, .num b => if 0 ≤ b then .ninf else .pinf
  | .pinf, .pinf => .nan
  | .pinf, .ninf => .nan
  | .ninf, .pinf => .nan
  | .ninf, .ninf => .nan

/-- Strict comparison on non-NaN values (NaN compares false, as in IEEE). -/
def pyLt : PyNum → PyNum → Bool
  | .num a, .num b => decide (a < b)
  | .num _, .pinf => true
  | .ninf, .num _ => true
  | .ninf, .pinf => true
  | _, _ => false

def pyMin (a b : PyNum) : PyNum := if pyLt b a then b else a

def pyMax (a b : PyNum) : PyNum := if pyLt a b then b else a

def pyToOpt : PyNum → Option ℚ
  | .num q => some q
  | _ => none

/-! ### Python string primitives (ASCII scope, as used by ticker symbols) -/

def lowerUpperPairs : List (Char × Char) :=
  [('a', 'A'), ('b', 'B'), ('c', 'C'), ('d', 'D'), ('e', 'E'), ('f', 'F'),
   ('g', 'G'), ('h', 'H'), ('i', 'I'), ('j', 'J'), ('k', 'K'), ('l', 'L'),
   ('m', 'M'), ('n', 'N'), ('o', 'O'), ('p', 'P'), ('q', 'Q'), ('r', 'R'),
   ('s', 'S'), ('t', 'T'), ('u', 'U'), ('v', 'V'), ('w', 'W'), ('x', 'X'),
   ('y', 'Y'), ('z', 'Z')]

def pyUpperChar (c : Char) : Char :=
  match lowerUpperPairs.find? (fun p => p.1 == c) with
  | some p => p.2
  | none => c

def pyUpper (s : PyStr) : PyStr := s.map pyUpperChar

def pySpaceChars : List Char := [' ', '\t', '\n', '\r', Char.ofNat 11, Char.ofNat 12]

def pyIsSpace (c : Char) : Bool := pySpaceChars.contains c

def lstrip (s : PyStr) : PyStr := s.dropWhile pyIsSpace

def rstrip (s : PyStr) : PyStr := (s.reverse.dropWhile pyIsSpace).reverse

def pyStrip (s : PyStr) : PyStr := rstrip (lstrip s)

/-- Embedding of `normalize_canadian_ticker`: strip and uppercase the input;
index symbols (leading caret) pass through; a symbol with no dot gets the
`.TO` suffix appended; anything else is returned as is. -/
def normalize_canadian_ticker (s : PyStr) : PyStr :=
  let t := pyUpper (pyStrip s)
  if t.head? = some '^' then t
  else if t.contains '.' = false then t ++ pstr ".TO"
  else t

/-- Ticker normalization written from the words of spec section 4.1: trim and
uppercase; symbols starting with the index marker pass through unchanged;
symbols without a dot-separated exchange suffix receive the default
domestic-exchange suffix appended; all other symbols pass through unchanged. -/
def specNormalizeTicker (s : PyStr) : PyStr :=
  let t := pyUpper (pyStrip s)
  if t.head? = some '^' then t
  else if '.' ∈ t then t
  else t ++ pstr ".TO"

/-! ### Drawdown (`max_drawdown`) -/

def qCumprodAux (acc : ℚ) : List ℚ → List ℚ
  | [] => []
  | x :: xs => (acc * x) :: qCumprodAux (acc * x) xs

def qCummaxAux (best : Option ℚ) : List ℚ → List ℚ
  | [] => []
  | x :: xs =>
      match best with
      | none => x :: qCummaxAux (some x) xs
      | some m => max m x :: qCummaxAux (some (max m x)) xs

def qFoldMin : List ℚ → Option ℚ
  | [] => none
  | x :: xs => some (xs.foldl min x)

/-- Drawdown computation written from the words of spec section 4.2: coerce to
numeric and drop non-numeric/missing entries; if none remain the result is
undefined; otherwise build the cumulative wealth index of compounded returns,
its running maximum, and take the minimum of (index / running-max − 1); a
ratio against a zero peak does not denote and is skipped as undefined. -/
def specMaxDrawdown (l : List PyNum) : Option ℚ :=
  let s := l.filterMap pyToOpt
  if s.isEmpty then none
  else
    let wealth := qCumprodAux 1 (s.map (fun r => 1 + r))
    let peak := qCummaxAux none wealth
    let dd := List.zipWith (fun c p => if p = 0 then none else some (c / p - 1)) wealth peak
    qFoldMin (dd.filterMap id)

def cumprodAux (acc : PyNum) : List PyNum → List PyNum
  | [] => []
  | x :: xs => pyMul acc x :: cumprodAux (pyMul acc x) xs

/-- Running maximum with pandas `cummax` NaN semantics: a NaN entry stays NaN
in the output and is ignored by the running maximum. -/
def cummaxAux (best : Option PyNum) : List PyNum → List PyNum
  | [] => []
  | x :: xs =>
      if pyIsNan x then PyNum.nan :: cummaxAux best xs
      else
        match best with
        | none => x :: cummaxAux (some x) xs
        | some m => pyMax m x :: cummaxAux (some (pyMax m x)) xs

/-- Minimum of a series with pandas `min` semantics (`skipna=True`): NaN
entries are ignored; an all-NaN (or empty) series has minimum NaN. -/
def minSkipNan (l : List PyNum) : PyNum :=
  match l.filter (fun x => ! pyIsNan x) with
  | [] => .nan
  | x :: xs => xs.foldl pyMin x

/-- Embedding of `max_drawdown` (dashboard.py lines 33-50): coerce/drop NaN,
empty guard, cumulative wealth index, running peak, minimum of ratios minus
one, and the final finiteness guard. -/
def max_drawdown (l : List PyNum) : PyNum :=
  let s := l.filter (fun x => ! pyIsNan x)
  if s.isEmpty then .nan
  else
    let cumulative := cumprodAux (.num 1) (s.map (fun r => pyAdd (.num 1) r))
    let peak := cummaxAux none cumulative
    let dd := List.zipWith (fun c p => pySub (pyDiv c p) (.num 1)) cumulative peak
    match minSkipNan dd with
    | .num q => .num q
    | _ => .nan

/-- Mirrors the two `warnings.warn` sites of `max_drawdown`: the function
warns exactly when it returns NaN (empty series, or non-finite result). -/
def maxDrawdownWarned (l : List PyNum) : Bool :=
  let s := l.filter (fun x => ! pyIsNan x)
  if s.isEmpty then true
  else
    let cumulative := cumprodAux (.num 1) (s.map (fun r => pyAdd (.num 1) r))
    let peak := cummaxAux none cumulative
    let dd := List.zipWith (fun c p => pySub (pyDiv c p) (.num 1)) cumulative peak
    match minSkipNan dd with
    | .num _ => false
    | _ => true

/-! ### Metrics (`compute_metrics`) -/

structure Row where
  date : Option ℤ
  close : PyNum
  volume : PyNum
  extras : List (PyStr × PyStr)
deriving DecidableEq

structure DataFrame where
  cols : List PyStr
  rows : List Row
deriving DecidableEq

/-- Result record of `compute_metrics`.  `none` models the "N/A"/NaN marker.
`cagrBase` holds the pair (total return, years); the code's CAGR is the
deterministic function `(1 + tr) ^ (1 / years) - 1` of that pair, which is
transcendental and therefore kept unevaluated.  `volSq` holds the square of
the code's annualized volatility, i.e. sample variance × 252 (the code's
value is its square root, defined for exactly the same inputs). -/
structure Metrics where
  startDate : Option ℤ
  endDate : Option ℤ
  totalReturn : Option ℚ
  cagrBase : Option (ℚ × ℚ)
  volSq : Option ℚ
  maxDrawdown : Option ℚ
deriving DecidableEq

/-- Percentage change with pandas `pct_change` semantics on a NaN-free
series: first entry NaN, entry i (i ≥ 1) is `x i / x (i-1) - 1`. -/
def pctChange : List PyNum → List PyNum
  | [] => []
  | x :: xs =>
      PyNum.nan :: List.zipWith (fun cur prev => pySub (pyDiv cur prev) (.num 1)) xs (x :: xs)

def pySumList (l : List PyNum) : PyNum := l.foldl pyAdd (.num 0)

def meanPy (l : List PyNum) : PyNum := pyDiv (pySumList l) (.num (l.length : ℚ))

/-- Sample variance (ddof = 1), as used by pandas `std` (whose value is the
square root of this). NaN for fewer than two observations. -/
def varPy (l : List PyNum) : PyNum :=
  if l.length < 2 then .nan
  else
    let m := meanPy l
    pyDiv (pySumList (l.map (fun x => pyMul (pySub x m) (pySub x m))))
      (.num ((l.length : ℚ) - 1))

/-- Rows surviving `dropna(subset=["Date", "Close"])` after the coercions,
projected to (date, close). -/
def cleanRows (rows : List Row) : List (ℤ × PyNum) :=
  rows.filterMap (fun r =>
    match r.date with
    | some d => if pyIsNan r.close then none else some (d, r.close)
    | none => none)

/-- Rows surviving the further `dropna(subset=["Return"])`, as
(date, close, return) triples. -/
def dRowsOf (cr : List (ℤ × PyNum)) : List (ℤ × PyNum × PyNum) :=
  let rets := pctChange (cr.map Prod.snd)
  (cr.zip rets).filterMap (fun pr => if pyIsNan pr.2 then none else some (pr.1.1, pr.1.2, pr.2))

def dummyTriple : ℤ × PyNum × PyNum := (0, .nan, .nan)

/-- The CAGR gate of `compute_metrics`: `none` (NaN) when the elapsed span
is non-positive or the total return is not finite; otherwise the pair
(total return, years) determining the code's CAGR `(1+tr)^(1/years) - 1`.
A negative base (1 + tr < 0) with the non-integral exponent 1/years gives
NaN under numpy float64 power, so the `np.isfinite(cagr)` check downgrades
it to NaN (undefined) as well. -/
def cagrBaseOf (tr : Option ℚ) (years : ℚ) : Option (ℚ × ℚ) :=
  match tr with
  | some v => if years ≤ 0 then none else if 1 + v < 0 then none else some (v, years)
  | none => none

/-- Core of `compute_metrics` after the column check, operating on the
cleaned (date, close) rows.  Per-metric failures are downgraded to the
undefined marker, never raised, so this stage always returns `.ok`. -/
def metricsCore (cr : List (ℤ × PyNum)) : Except PyStr Metrics :=
  let d := dRowsOf cr
  if d.length < 2 then
    .ok ⟨d.head?.map (fun x => x.1), (d.getLast?).map (fun x => x.1), none, none, none, none⟩
  else
    let firstD := (d.headD dummyTriple).1
    let lastD := (d.getLastD dummyTriple).1
    let firstC := (d.headD dummyTriple).2.1
    let lastC := (d.getLastD dummyTriple).2.1
    let tr := pyToOpt (pySub (pyDiv lastC firstC) (.num 1))
    let years : ℚ := ((lastD - firstD : ℤ) : ℚ) * 4 / 1461
    let drets := d.map (fun x => x.2.2)
    let vol := pyToOpt (pyMul (varPy drets) (.num 252))
    let mdd := pyToOpt (max_drawdown drets)
    .ok ⟨some firstD, some lastD, tr, cagrBaseOf tr years, vol, mdd⟩

def requiredCols : List PyStr := [pstr "Close", pstr "Date", pstr "Volume"]

def quoteCol (s : PyStr) : PyStr := Char.ofNat 39 :: (s ++ [Char.ofNat 39])

def missingColsMsg (missing : List PyStr) : PyStr :=
  pstr "compute_metrics missing required columns: [" ++
    (List.intersperse (pstr ", ") (missing.map quoteCol)).flatten ++ pstr "]"

/-- Embedding of `compute_metrics` (dashboard.py lines 53-142). -/
def compute_metrics (f : DataFrame) : Except PyStr Metrics :=
  let missing := requiredCols.filter (fun c => ! f.cols.contains c)
  if missing.isEmpty then metricsCore (cleanRows f.rows)
  else .error (missingColsMsg missing)

/-! ### Dashboard construction (`build_dashboard_html`) -/

/-- Rolling statistic with pandas semantics for window `w` and default
`min_periods = w`: the entry at index i is NaN until the window is full, or
when any of the w window values is NaN; otherwise it is `f` of the window. -/
def rollingStat (w : ℕ) (f : List PyNum → PyNum) (xs : List PyNum) : List PyNum :=
  (List.range xs.length).map (fun i =>
    if i + 1 < w then PyNum.nan
    else
      let win := (xs.drop (i + 1 - w)).take w
      if win.any pyIsNan then PyNum.nan else f win)

/-- The statistic of the Vol30 column: the square of `std() * sqrt(252)`,
i.e. sample variance × 252 (NaN exactly when the code's value is NaN). -/
def volStat (win : List PyNum) : PyNum := pyMul (varPy win) (.num 252)

def ma50Of (closes : List PyNum) : List PyNum := rollingStat 50 meanPy closes

def ma200Of (closes : List PyNum) : List PyNum := rollingStat 200 meanPy closes

def vol30Of (closes : List PyNum) : List PyNum := rollingStat 30 volStat (pctChange closes)

/-- One row of the provider's table after `reset_index` and the three numeric
coercions: the date (None for NaT), close and volume. -/
structure RawRow where
  date : Option ℤ
  close : PyNum
  volume : PyNum
deriving DecidableEq

/-- Rows surviving `dropna(subset=["Date", "Close", "Volume"])`. -/
def parseRaw (h : List RawRow) : List (ℤ × PyNum × PyNum) :=
  h.filterMap (fun r =>
    match r.date with
    | some d => if pyIsNan r.close || pyIsNan r.volume then none else some (d, r.close, r.volume)
    | none => none)

/-- The data serialized into the HTML dashboard: output path, normalized
ticker, the aligned series of the four panels, and the metrics summary. -/
structure DashOut where
  path : PyStr
  ticker : PyStr
  dates : List ℤ
  closes : List PyNum
  volumes : List PyNum
  ma50 : List PyNum
  ma200 : List PyNum
  rets : List PyNum
  vol30 : List PyNum
  metrics : Metrics
deriving DecidableEq

def noDataMsg (t : PyStr) : PyStr := pstr "No price data returned for ticker: " ++ t

def unparsedMsg (t : PyStr) : PyStr :=
  pstr "Price data returned for " ++ t ++
    pstr ", but could not be parsed into numeric Date/Close/Volume."

def rawToRow (x : ℤ × PyNum × PyNum) : Row := ⟨some x.1, x.2.1, x.2.2, []⟩

/-- Embedding of `build_dashboard_html` (dashboard.py lines 145-225).  The
provider response is the function's data input (`yf.Ticker(t).history`),
modelled as `none` (None) or a list of raw rows.  A successful run returns
the dashboard data, whose `path` is the written file; an error return models
the raised `ValueError` (no file is produced). -/
def build_dashboard_html (ticker : PyStr) (hist : Option (List RawRow)) (outHtml : PyStr) :
    Except PyStr DashOut :=
  let t := normalize_canadian_ticker ticker
  match hist with
  | none => .error (noDataMsg t)
  | some h =>
    if h.isEmpty then .error (noDataMsg t)
    else
      let rows := parseRaw h
      if rows.isEmpty then .error (unparsedMsg t)
      else
        let closes := rows.map (fun r => r.2.1)
        match compute_metrics ⟨[pstr "Date", pstr "Close", pstr "Volume"], rows.map rawToRow⟩ with
        | .error e => .error e
        | .ok m =>
            .ok ⟨outHtml, t, rows.map (fun r => r.1), closes, rows.map (fun r => r.2.2),
                 ma50Of closes, ma200Of closes, pctChange closes, vol30Of closes, m⟩

/-! ### Lemmas about the string primitives -/

theorem pyUpperChar_snd (p : Char × Char) (hp : p ∈ lowerUpperPairs) :
    pyUpperChar p.2 = p.2 := by
  fin_cases hp <;> decide

theorem pyIsSpace_pair (p : Char × Char) (hp : p ∈ lowerUpperPairs) :
    pyIsSpace p.1 = false ∧ pyIsSpace p.2 = false := by
  fin_cases hp <;> decide

theorem pyUpperChar_cases (c : Char) :
    pyUpperChar c = c ∨ ∃ p, p ∈ lowerUpperPairs ∧ p.1 = c ∧ pyUpperChar c = p.2 := by
  rcases h : lowerUpperPairs.find? (fun p => p.1 == c) with _ | p
  · left
    simp [pyUpperChar, h]
  · right
    refine ⟨p, List.mem_of_find?_eq_some h, ?_, by simp [pyUpperChar, h]⟩
    have := List.find?_some h
    simpa using this

theorem pyUpperChar_idem (c : Char) : pyUpperChar (pyUpperChar c) = pyUpperChar c := by
  rcases pyUpperChar_cases c with h | ⟨p, hp, _, h⟩
  · rw [h, h]
  · rw [h, pyUpperChar_snd p hp]

theorem pyIsSpace_pyUpperChar (c : Char) : pyIsSpace (pyUpperChar c) = pyIsSpace c := by
  rcases pyUpperChar_cases c with h | ⟨p, hp, hc, h⟩
  · rw [h]
  · rw [h, ← hc, (pyIsSpace_pair p hp).1, (pyIsSpace_pair p hp).2]

theorem pyIsSpace_comp_pyUpperChar : pyIsSpace ∘ pyUpperChar = pyIsSpace :=
  funext pyIsSpace_pyUpperChar

theorem pyUpper_idem (s : PyStr) : pyUpper (pyUpper s) = pyUpper s := by
  simp only [pyUpper, List.map_map]
  exact List.map_congr_left (fun c _ => pyUpperChar_idem c)

theorem dropWhile_idem (p : Char → Bool) (l : List Char) :
    (l.dropWhile p).dropWhile p = l.dropWhile p := by
  cases h : l.dropWhile p with
  | nil => rfl
  | cons a as =>
      have hh := List.head?_dropWhile_not p l
      rw [h] at hh
      simp only [List.head?_cons] at hh
      simp [List.dropWhile_cons, hh]

theorem lstrip_idem (s : PyStr) : lstrip (lstrip s) = lstrip s :=
  dropWhile_idem pyIsSpace s

theorem rstrip_idem (s : PyStr) : rstrip (rstrip s) = rstrip s := by
  simp only [rstrip, List.reverse_reverse]
  rw [dropWhile_idem]

theorem rstrip_prefix (s : PyStr) : rstrip s <+: s := by
  have h := List.reverse_prefix.mpr (List.dropWhile_suffix (l := s.reverse) pyIsSpace)
  rwa [List.reverse_reverse] at h

theorem head?_of_prefix {l t : PyStr} (h : l <+: t) (hne : l ≠ []) : t.head? = l.head? := by
  rcases h with ⟨u, rfl⟩
  cases l with
  | nil => exact absurd rfl hne
  | cons a as => rfl

theorem lstrip_of_head (s : PyStr) (h : ∀ a, s.head? = some a → pyIsSpace a = false) :
    lstrip s = s := by
  cases s with
  | nil => rfl
  | cons a as =>
      have := h a rfl
      simp [lstrip, List.dropWhile_cons, this]

theorem lstrip_head (s : PyStr) (a : Char) (h : (lstrip s).head? = some a) :
    pyIsSpace a = false := by
  have hh := List.head?_dropWhile_not pyIsSpace s
  rw [show s.dropWhile pyIsSpace = lstrip s from rfl, h] at hh
  exact hh

theorem lstrip_rstrip_lstrip (s : PyStr) : lstrip (rstrip (lstrip s)) = rstrip (lstrip s) := by
  apply lstrip_of_head
  intro a ha
  cases hr : rstrip (lstrip s) with
  | nil => rw [hr] at ha; cases ha
  | cons b bs =>
      have hpre := rstrip_prefix (lstrip s)
      rw [hr] at hpre ha
      have hhead := head?_of_prefix hpre (by simp)
      have : (lstrip s).head? = some a := by rw [hhead]; exact ha
      exact lstrip_head s a this

theorem pyStrip_idem (s : PyStr) : pyStrip (pyStrip s) = pyStrip s := by
  simp only [pyStrip]
  rw [lstrip_rstrip_lstrip, rstrip_idem]

theorem lstrip_pyUpper (s : PyStr) : lstrip (pyUpper s) = pyUpper (lstrip s) := by
  simp only [lstrip, pyUpper]
  rw [List.dropWhile_map, pyIsSpace_comp_pyUpperChar]

theorem rstrip_pyUpper (s : PyStr) : rstrip (pyUpper s) = pyUpper (rstrip s) := by
  simp only [rstrip, pyUpper]
  rw [← List.map_reverse, List.dropWhile_map, pyIsSpace_comp_pyUpperChar, List.map_reverse]

theorem pyStrip_pyUpper (s : PyStr) : pyStrip (pyUpper s) = pyUpper (pyStrip s) := by
  simp only [pyStrip]
  rw [lstrip_pyUpper, rstrip_pyUpper]

/-- The canonical form `upper (strip s)` is a fixed point of both `strip`
and `upper`. -/
theorem canonical_fixed (s : PyStr) :
    pyStrip (pyUpper (pyStrip s)) = pyUpper (pyStrip s) ∧
      pyUpper (pyUpper (pyStrip s)) = pyUpper (pyStrip s) := by
  constructor
  · rw [pyStrip_pyUpper, pyStrip_idem]
  · exact pyUpper_idem (pyStrip s)

theorem lstrip_canonical (s : PyStr) :
    lstrip (pyUpper (pyStrip s)) = pyUpper (pyStrip s) := by
  rw [lstrip_pyUpper]
  congr 1
  exact lstrip_rstrip_lstrip s

/-- Unfolded form of `normalize_canadian_ticker`. -/
theorem normalize_val (s : PyStr) :
    normalize_canadian_ticker s =
      (if (pyUpper (pyStrip s)).head? = some '^' then pyUpper (pyStrip s)
       else if (pyUpper (pyStrip s)).contains '.' = false then pyUpper (pyStrip s) ++ pstr ".TO"
       else pyUpper (pyStrip s)) := rfl

theorem contains_eq_decide_mem (t : PyStr) (c : Char) : t.contains c = decide (c ∈ t) := by
  simp [List.contains]

theorem normalize_eq_spec (s : PyStr) :
    normalize_canadian_ticker s = specNormalizeTicker s := by
  rw [normalize_val]
  unfold specNormalizeTicker
  by_cases h1 : (pyUpper (pyStrip s)).head? = some '^'
  · simp [h1]
  · by_cases h2 : '.' ∈ pyUpper (pyStrip s) <;>
      simp [h1, h2, contains_eq_decide_mem]

theorem lstrip_append_TO (t : PyStr) (ht : lstrip t = t) :
    lstrip (t ++ pstr ".TO") = t ++ pstr ".TO" := by
  have hd : t.dropWhile pyIsSpace = t := ht
  rw [lstrip, List.dropWhile_append, hd]
  cases t with
  | nil => decide
  | cons a as => rfl

theorem rstrip_append_TO (t : PyStr) : rstrip (t ++ pstr ".TO") = t ++ pstr ".TO" := by
  have hrev : (t ++ pstr ".TO").reverse = 'O' :: 'T' :: '.' :: t.reverse := by
    rw [List.reverse_append]
    rfl
  rw [rstrip, hrev, List.dropWhile_cons_of_neg (by decide), ← hrev, List.reverse_reverse]

theorem pyUpper_append (s t : PyStr) : pyUpper (s ++ t) = pyUpper s ++ pyUpper t :=
  List.map_append pyUpperChar s t

/-- The result of a first normalization is a fixed point of strip-and-upper
even after the `.TO` suffix was appended. -/
theorem canonical_TO_fixed (s : PyStr) :
    pyStrip (pyUpper (pyStrip s) ++ pstr ".TO") = pyUpper (pyStrip s) ++ pstr ".TO" ∧
      pyUpper (pyUpper (pyStrip s) ++ pstr ".TO") = pyUpper (pyStrip s) ++ pstr ".TO" := by
  constructor
  · rw [pyStrip, lstrip_append_TO (pyUpper (pyStrip s)) (lstrip_canonical s), rstrip_append_TO]
  · have hTO : pyUpper (pstr ".TO") = pstr ".TO" := by decide
    rw [pyUpper_append, pyUpper_idem, hTO]

theorem normalize_ticker_idem (s : PyStr) :
    normalize_canadian_ticker (normalize_canadian_ticker s) = normalize_canadian_ticker s := by
  have hS := (canonical_fixed s).1
  have hU := (canonical_fixed s).2
  rw [normalize_val s]
  by_cases h1 : (pyUpper (pyStrip s)).head? = some '^'
  · rw [if_pos h1, normalize_val, hS, hU, if_pos h1]
  · rw [if_neg h1]
    by_cases h2 : (pyUpper (pyStrip s)).contains '.' = false
    · rw [if_pos h2, normalize_val, (canonical_TO_fixed s).1, (canonical_TO_fixed s).2]
      have hh : (pyUpper (pyStrip s) ++ pstr ".TO").head? ≠ some '^' := by
        cases hc : pyUpper (pyStrip s) with
        | nil => decide
        | cons a as =>
            rw [hc] at h1
            simpa using h1
      rw [if_neg hh]
      have hdot : (pyUpper (pyStrip s) ++ pstr ".TO").contains '.' = true := by
        rw [contains_eq_decide_mem]
        simp [pstr]
      rw [hdot]
      simp
    · rw [if_neg h2, normalize_val, hS, hU, if_neg h1, if_neg h2]

example : normalize_canadian_ticker (pstr "XYZ") = pstr "XYZ.TO" := by decide

example : normalize_canadian_ticker (pstr " ry.to ") = pstr "RY.TO" := by decide

example : max_drawdown [PyNum.num 0, PyNum.num 0] = PyNum.num 0 := by
  norm_num [max_drawdown, cumprodAux, cummaxAux, minSkipNan, pyMul, pyAdd, pyDiv, pySub,
    pyNeg, pyMin, pyMax, pyLt, pyIsNan, List.filter, List.zipWith, List.foldl]

example :
    max_drawdown [PyNum.num (1/4), PyNum.nan, PyNum.num (-1/2)] = PyNum.num (-1/2) := by
  norm_num [max_drawdown, cumprodAux, cummaxAux, minSkipNan, pyMul, pyAdd, pyDiv, pySub,
    pyNeg, pyMin, pyMax, pyLt, pyIsNan, List.filter, List.zipWith, List.foldl]

/-! ### Claim C3 -/

/-- C3: Ticker normalization is: trim and uppercase; a symbol starting with
the index marker "^" passes through unchanged; a symbol without a
dot-separated exchange suffix has the default suffix ".TO" appended; any
other symbol passes through unchanged; it is a total function that always
returns a string, and agrees with the spec's rule on every input.  In
particular "XYZ" normalizes to "XYZ.TO", "^GSPTSE" is unchanged, and
"XYZ.TO" is unchanged. -/
theorem claim_C3 :
    (∀ s : PyStr, normalize_canadian_ticker s = specNormalizeTicker s) ∧
      normalize_canadian_ticker (pstr "XYZ") = pstr "XYZ.TO" ∧
      normalize_canadian_ticker (pstr "^GSPTSE") = pstr "^GSPTSE" ∧
      normalize_canadian_ticker (pstr "XYZ.TO") = pstr "XYZ.TO" :=
  ⟨normalize_eq_spec, by decide, by decide, by decide⟩

/-! ### Claim C8 -/

/-- C8: For any ticker whose trimmed-and-uppercased form has no dot and does
not start with the index marker, normalization appends the default suffix
".TO" exactly once (the result is that dot-free form followed by one copy of
".TO"), and normalization is idempotent: re-normalizing any output returns
it unchanged. -/
theorem claim_C8 :
    (∀ s : PyStr, (pyUpper (pyStrip s)).contains '.' = false →
        (pyUpper (pyStrip s)).head? ≠ some '^' →
        normalize_canadian_ticker s = pyUpper (pyStrip s) ++ pstr ".TO") ∧
      ∀ s : PyStr,
        normalize_canadian_ticker (normalize_canadian_ticker s) =
          normalize_canadian_ticker s := by
  constructor
  · intro s h2 h1
    rw [normalize_val, if_neg h1, if_pos h2]
  · exact normalize_ticker_idem

/-- Witness for C8 at the concrete ticker "xyz". -/
theorem claim_C8_witness :
    normalize_canadian_ticker (pstr "xyz") = pyUpper (pyStrip (pstr "xyz")) ++ pstr ".TO" ∧
      normalize_canadian_ticker (normalize_canadian_ticker (pstr "xyz")) =
        normalize_canadian_ticker (pstr "xyz") :=
  ⟨claim_C8.1 (pstr "xyz") (by decide) (by decide), claim_C8.2 (pstr "xyz")⟩

/-! ### Lemmas for `max_drawdown` -/

/-- Finite-or-NaN inputs (no infinities): the shape of a coerced series of
fractional returns. -/
def finOrNan (x : PyNum) : Prop := x ≠ PyNum.pinf ∧ x ≠ PyNum.ninf

instance (x : PyNum) : Decidable (finOrNan x) :=
  inferInstanceAs (Decidable (x ≠ PyNum.pinf ∧ x ≠ PyNum.ninf))

theorem finOrNan_cases (x : PyNum) (h : finOrNan x) :
    x = PyNum.nan ∨ ∃ q, x = PyNum.num q := by
  cases x with
  | num q => exact Or.inr ⟨q, rfl⟩
  | pinf => exact absurd rfl h.1
  | ninf => exact absurd rfl h.2
  | nan => exact Or.inl rfl

theorem pyAdd_num (a b : ℚ) : pyAdd (.num a) (.num b) = .num (a + b) := rfl

theorem pyMul_num (a b : ℚ) : pyMul (.num a) (.num b) = .num (a * b) := rfl

theorem pySub_num (a b : ℚ) : pySub (.num a) (.num b) = .num (a - b) := by
  show PyNum.num (a + -b) = PyNum.num (a - b)
  rw [← sub_eq_add_neg]

theorem pyMax_num (a b : ℚ) : pyMax (.num a) (.num b) = .num (max a b) := by
  by_cases h : a < b
  · simp [pyMax, pyLt, h, max_eq_right h.le]
  · simp [pyMax, pyLt, h, max_eq_left (le_of_not_lt h)]

theorem pyMin_num (a b : ℚ) : pyMin (.num a) (.num b) = .num (min a b) := by
  by_cases h : b < a
  · simp [pyMin, pyLt, h, min_eq_right h.le]
  · simp [pyMin, pyLt, h, min_eq_left (le_of_not_lt h)]

theorem filter_eq_map_filterMap (l : List PyNum)
    (hl : ∀ x ∈ l, finOrNan x) :
    l.filter (fun x => ! pyIsNan x) = (l.filterMap pyToOpt).map PyNum.num := by
  induction l with
  | nil => rfl
  | cons x xs ih =>
      have hx := finOrNan_cases x (hl x (List.mem_cons_self x xs))
      have ihh := ih (fun y hy => hl y (List.mem_cons_of_mem x hy))
      rcases hx with rfl | ⟨q, rfl⟩
      · simpa [pyIsNan, pyToOpt, List.filter_cons, List.filterMap_cons] using ihh
      · simpa [pyIsNan, pyToOpt, List.filter_cons, List.filterMap_cons] using ihh

theorem cumprod_map (qs : List ℚ) : ∀ a : ℚ,
    cumprodAux (.num a) (qs.map PyNum.num) = (qCumprodAux a qs).map PyNum.num := by
  induction qs with
  | nil => intro a; rfl
  | cons x xs ih =>
      intro a
      simp only [List.map_cons, cumprodAux, qCumprodAux, pyMul_num, ih (a * x)]

theorem cummax_map (qs : List ℚ) : ∀ ob : Option ℚ,
    cummaxAux (ob.map PyNum.num) (qs.map PyNum.num) = (qCummaxAux ob qs).map PyNum.num := by
  induction qs with
  | nil => intro ob; cases ob <;> rfl
  | cons x xs ih =>
      intro ob
      cases ob with
      | none =>
          show PyNum.num x :: cummaxAux (some (PyNum.num x)) (xs.map PyNum.num) = _
          rw [show (some (PyNum.num x)) = (some x).map PyNum.num from rfl, ih (some x)]
          rfl
      | some m =>
          show pyMax (.num m) (.num x) :: cummaxAux (some (pyMax (.num m) (.num x))) (xs.map PyNum.num) = _
          rw [pyMax_num, show (some (PyNum.num (max m x))) = (some (max m x)).map PyNum.num from rfl,
            ih (some (max m x))]
          rfl

theorem dd_filter_transport : ∀ (cs ps : List ℚ),
    (∀ pr ∈ cs.zip ps, pr.2 = 0 → pr.1 = 0) →
    (List.zipWith (fun c p => pySub (pyDiv c p) (PyNum.num 1))
        (cs.map PyNum.num) (ps.map PyNum.num)).filter (fun x => ! pyIsNan x)
      = ((List.zipWith (fun c p => if p = 0 then none else some (c / p - 1)) cs ps).filterMap
          id).map PyNum.num := by
  intro cs
  induction cs with
  | nil => intro ps _; rfl
  | cons c cs' ih =>
      intro ps h
      cases ps with
      | nil => rfl
      | cons p ps' =>
          have htail := ih ps' (fun pr hpr => h pr (by simp [List.zip_cons_cons, hpr]))
          by_cases hp : p = 0
          · have hc : c = 0 := h (c, p) (by simp [List.zip_cons_cons]) hp
            subst hp
            subst hc
            simpa [List.zipWith_cons_cons, pyDiv, pySub, pyAdd, pyNeg, pyIsNan,
              List.filter_cons, List.filterMap_cons] using htail
          · have hdiv : pyDiv (.num c) (.num p) = .num (c / p) := by simp [pyDiv, hp]
            simpa [List.zipWith_cons_cons, hdiv, pySub_num, pyIsNan, hp,
              List.filter_cons, List.filterMap_cons] using htail

theorem foldl_pyMin_map (xs : List ℚ) : ∀ a : ℚ,
    (xs.map PyNum.num).foldl pyMin (PyNum.num a) = PyNum.num (xs.foldl min a) := by
  induction xs with
  | nil => intro a; rfl
  | cons x xs ih =>
      intro a
      simp only [List.map_cons, List.foldl_cons, pyMin_num, ih (min a x)]

theorem cum_peak_zero (qs : List ℚ) : ∀ (acc b : ℚ), (b = 0 → acc = 0) →
    ∀ pr ∈ (qCumprodAux acc qs).zip (qCummaxAux (some b) (qCumprodAux acc qs)),
      pr.2 = 0 → pr.1 = 0 := by
  induction qs with
  | nil =>
      intro acc b _ pr hpr
      simp [qCumprodAux] at hpr
  | cons x xs ih =>
      intro acc b hb pr hpr
      have hmax : max b (acc * x) = 0 → acc * x = 0 := by
        intro h0
        rcases max_choice b (acc * x) with hmc | hmc
        · have hbz : b = 0 := by rw [← hmc, h0]
          rw [hb hbz, zero_mul]
        · rw [← hmc, h0]
      simp only [qCumprodAux, qCummaxAux, List.zip_cons_cons, List.mem_cons] at hpr
      rcases hpr with rfl | hpr
      · exact hmax
      · exact ih (acc * x) (max b (acc * x)) hmax pr hpr

/-- Evaluation of `specMaxDrawdown` on a series with at least one valid
return. -/
theorem specMaxDrawdown_cons (l : List PyNum) (r : ℚ) (rs : List ℚ)
    (h : l.filterMap pyToOpt = r :: rs) :
    specMaxDrawdown l =
      qFoldMin
        (((if (1:ℚ) * (1 + r) = 0 then none else some ((1:ℚ) * (1 + r) / ((1:ℚ) * (1 + r)) - 1)) ::
          List.zipWith (fun c p => if p = 0 then none else some (c / p - 1))
            (qCumprodAux (1 * (1 + r)) (rs.map (fun q => 1 + q)))
            (qCummaxAux (some (1 * (1 + r)))
              (qCumprodAux (1 * (1 + r)) (rs.map (fun q => 1 + q))))).filterMap id) := by
  unfold specMaxDrawdown
  rw [h]
  rfl

theorem foldl_min_le (l : List ℚ) : ∀ a : ℚ, l.foldl min a ≤ a := by
  induction l with
  | nil => intro a; simp
  | cons x xs ih => exact fun a => le_trans (ih (min a x)) (min_le_left a x)

theorem qCumprodAux_zero (l : List ℚ) : qCumprodAux 0 l = List.replicate l.length 0 := by
  induction l with
  | nil => rfl
  | cons x xs ih => simp [qCumprodAux, ih, List.replicate_succ]

theorem qCummaxAux_zero (n : ℕ) :
    qCummaxAux (some 0) (List.replicate n (0:ℚ)) = List.replicate n 0 := by
  induction n with
  | zero => rfl
  | succ k ih => simp [List.replicate_succ, qCummaxAux, ih]

theorem zip_dd_zero (n : ℕ) :
    List.zipWith (fun c p => if p = (0:ℚ) then none else some (c / p - 1))
        (List.replicate n (0:ℚ)) (List.replicate n 0) = List.replicate n none := by
  induction n with
  | zero => rfl
  | succ k ih => simp [List.replicate_succ, List.zipWith_cons_cons, ih]

theorem filterMap_id_none (n : ℕ) :
    (List.replicate n (none : Option ℚ)).filterMap id = [] := by
  induction n with
  | zero => rfl
  | succ k ih => simp [List.replicate_succ, List.filterMap_cons, ih]

theorem spec_nonpos (l : List PyNum) (m : ℚ) (h : specMaxDrawdown l = some m) : m ≤ 0 := by
  rcases he : l.filterMap pyToOpt with _ | ⟨r, rs⟩
  · unfold specMaxDrawdown at h
    rw [he] at h
    simp at h
  · rw [specMaxDrawdown_cons l r rs he] at h
    by_cases hw : (1:ℚ) * (1 + r) = 0
    · rw [if_pos hw, hw, qCumprodAux_zero, qCummaxAux_zero, zip_dd_zero] at h
      rw [show (none :: List.replicate (rs.map (fun q => 1 + q)).length (none : Option ℚ)) =
        List.replicate ((rs.map (fun q => 1 + q)).length + 1) none from rfl] at h
      rw [filterMap_id_none] at h
      simp [qFoldMin] at h
    · rw [if_neg hw, div_self hw, sub_self] at h
      rw [List.filterMap_cons] at h
      simp only [id, Option.some.injEq] at h
      rw [qFoldMin] at h
      have := foldl_min_le
        ((List.zipWith (fun c p => if p = 0 then none else some (c / p - 1))
            (qCumprodAux (1 * (1 + r)) (rs.map (fun q => 1 + q)))
            (qCummaxAux (some (1 * (1 + r)))
              (qCumprodAux (1 * (1 + r)) (rs.map (fun q => 1 + q))))).filterMap id) 0
      rw [(Option.some.injEq _ _).mp h] at this
      exact this

theorem wealth_peak_inv (r : ℚ) (rs : List ℚ) :
    ∀ pr ∈ (qCumprodAux 1 ((r :: rs).map (fun q => 1 + q))).zip
        (qCummaxAux none (qCumprodAux 1 ((r :: rs).map (fun q => 1 + q)))),
      pr.2 = 0 → pr.1 = 0 := by
  intro pr hpr
  simp only [List.map_cons, qCumprodAux, qCummaxAux, List.zip_cons_cons, List.mem_cons] at hpr
  rcases hpr with rfl | hpr
  · exact id
  · exact cum_peak_zero (rs.map (fun q => 1 + q)) (1 * (1 + r)) (1 * (1 + r)) id pr hpr

theorem mdd_eq_spec (l : List PyNum) (hl : ∀ x ∈ l, finOrNan x) :
    pyToOpt (max_drawdown l) = specMaxDrawdown l := by
  rcases hqs : l.filterMap pyToOpt with _ | ⟨r, rs⟩
  · unfold max_drawdown specMaxDrawdown
    rw [filter_eq_map_filterMap l hl, hqs]
    rfl
  · unfold max_drawdown specMaxDrawdown
    rw [filter_eq_map_filterMap l hl, hqs]
    dsimp only [List.isEmpty]
    have hcomp : ((r :: rs).map PyNum.num).map (fun x => pyAdd (.num 1) x)
        = ((r :: rs).map (fun q => 1 + q)).map PyNum.num := by
      rw [List.map_map, List.map_map]
      exact List.map_congr_left (fun q _ => rfl)
    rw [hcomp, cumprod_map ((r :: rs).map (fun q => 1 + q)) 1]
    rw [show (none : Option PyNum) = (none : Option ℚ).map PyNum.num from rfl,
      cummax_map (qCumprodAux 1 ((r :: rs).map (fun q => 1 + q))) none]
    have hdd := dd_filter_transport (qCumprodAux 1 ((r :: rs).map (fun q => 1 + q)))
      (qCummaxAux none (qCumprodAux 1 ((r :: rs).map (fun q => 1 + q))))
      (wealth_peak_inv r rs)
    rcases hcol : (List.zipWith (fun c p => if p = 0 then none else some (c / p - 1))
        (qCumprodAux 1 ((r :: rs).map (fun q => 1 + q)))
        (qCummaxAux none (qCumprodAux 1 ((r :: rs).map (fun q => 1 + q))))).filterMap id with
      _ | ⟨m, ms⟩
    · have hmin : minSkipNan
          (List.zipWith (fun c p => pySub (pyDiv c p) (PyNum.num 1))
            ((qCumprodAux 1 ((r :: rs).map (fun q => 1 + q))).map PyNum.num)
            ((qCummaxAux none (qCumprodAux 1 ((r :: rs).map (fun q => 1 + q)))).map PyNum.num))
          = PyNum.nan := by
        unfold minSkipNan
        rw [hdd, hcol]
        rfl
      rw [hmin]
      rfl
    · have hmin : minSkipNan
          (List.zipWith (fun c p => pySub (pyDiv c p) (PyNum.num 1))
            ((qCumprodAux 1 ((r :: rs).map (fun q => 1 + q))).map PyNum.num)
            ((qCummaxAux none (qCumprodAux 1 ((r :: rs).map (fun q => 1 + q)))).map PyNum.num))
          = PyNum.num (ms.foldl min m) := by
        unfold minSkipNan
        rw [hdd, hcol]
        simp only [List.map_cons]
        exact foldl_pyMin_map ms m
      rw [hmin]
      rfl

theorem filterMap_pyToOpt_replicate_zero (n : ℕ) :
    (List.replicate n (PyNum.num 0)).filterMap pyToOpt = List.replicate n (0:ℚ) := by
  induction n with
  | zero => rfl
  | succ k ih => simp [List.replicate_succ, List.filterMap_cons, pyToOpt, ih]

theorem qCumprodAux_one_replicate (k : ℕ) :
    qCumprodAux 1 (List.replicate k (1:ℚ)) = List.replicate k 1 := by
  induction k with
  | zero => rfl
  | succ j ih => simp [List.replicate_succ, qCumprodAux, ih]

theorem qCummaxAux_one_replicate (k : ℕ) :
    qCummaxAux (some 1) (List.replicate k (1:ℚ)) = List.replicate k 1 := by
  induction k with
  | zero => rfl
  | succ j ih => simp [List.replicate_succ, qCummaxAux, ih]

theorem zip_dd_one (k : ℕ) :
    List.zipWith (fun c p => if p = (0:ℚ) then none else some (c / p - 1))
        (List.replicate k (1:ℚ)) (List.replicate k 1) = List.replicate k (some 0) := by
  induction k with
  | zero => rfl
  | succ j ih => simp [List.replicate_succ, List.zipWith_cons_cons, ih]

theorem filterMap_id_some_zero (k : ℕ) :
    (List.replicate k (some (0:ℚ))).filterMap id = List.replicate k 0 := by
  induction k with
  | zero => rfl
  | succ j ih => simp [List.replicate_succ, List.filterMap_cons, ih]

theorem foldl_min_zero (k : ℕ) : (List.replicate k (0:ℚ)).foldl min 0 = 0 := by
  induction k with
  | zero => rfl
  | succ j ih => simp [List.replicate_succ, List.foldl_cons, ih]

theorem spec_allzero (n : ℕ) (hn : 0 < n) :
    specMaxDrawdown (List.replicate n (PyNum.num 0)) = some 0 := by
  obtain ⟨k, rfl⟩ : ∃ k, n = k + 1 := ⟨n - 1, by omega⟩
  have hf : (List.replicate (k + 1) (PyNum.num 0)).filterMap pyToOpt
      = (0:ℚ) :: List.replicate k 0 := by
    rw [filterMap_pyToOpt_replicate_zero, List.replicate_succ]
  rw [specMaxDrawdown_cons _ 0 (List.replicate k 0) hf]
  have hone : (1:ℚ) * (1 + 0) = 1 := by norm_num
  rw [hone]
  have hmap : (List.replicate k (0:ℚ)).map (fun q => 1 + q) = List.replicate k 1 := by
    rw [List.map_replicate]
    norm_num
  rw [hmap, qCumprodAux_one_replicate, qCummaxAux_one_replicate, zip_dd_one,
    if_neg (one_ne_zero)]
  rw [div_self (one_ne_zero), sub_self, List.filterMap_cons]
  simp only [id]
  rw [show (List.filterMap id (List.replicate k (some (0:ℚ)))) = List.replicate k 0 from
    filterMap_id_some_zero k]
  rw [qFoldMin, foldl_min_zero]

/-! ### Claim C4 -/

/-- C4: `max_drawdown` on a series of (possibly missing) fractional returns
drops non-numeric/missing entries; if no valid entries remain it returns NaN
(the undefined marker) with a recorded warning; otherwise it agrees with the
spec's formula — the minimum over the series of (cumulative wealth index /
running maximum of that index − 1), a zero peak being undefined — any result
it does return is a non-positive fraction, and on an all-zero return series
of positive length the result is 0. -/
theorem claim_C4 (l : List PyNum) (hl : ∀ x ∈ l, finOrNan x) :
    (l.filter (fun x => ! pyIsNan x) = [] →
        max_drawdown l = PyNum.nan ∧ maxDrawdownWarned l = true) ∧
      pyToOpt (max_drawdown l) = specMaxDrawdown l ∧
      (∀ q, max_drawdown l = PyNum.num q → q ≤ 0) ∧
      (∀ n, 0 < n → max_drawdown (List.replicate n (PyNum.num 0)) = PyNum.num 0) := by
  refine ⟨?_, mdd_eq_spec l hl, ?_, ?_⟩
  · intro h
    constructor
    · unfold max_drawdown
      rw [h]
      rfl
    · unfold maxDrawdownWarned
      rw [h]
      rfl
  · intro q hq
    have h1 : pyToOpt (max_drawdown l) = some q := by rw [hq]; rfl
    rw [mdd_eq_spec l hl] at h1
    exact spec_nonpos l q h1
  · intro n hn
    have hrep : ∀ x ∈ List.replicate n (PyNum.num 0), finOrNan x := by
      intro x hx
      rw [List.eq_of_mem_replicate hx]
      exact ⟨by simp, by simp⟩
    have h2 := mdd_eq_spec (List.replicate n (PyNum.num 0)) hrep
    rw [spec_allzero n hn] at h2
    cases hmd : max_drawdown (List.replicate n (PyNum.num 0)) with
    | num q =>
        rw [hmd] at h2
        have : q = 0 := by simpa [pyToOpt] using h2
        rw [this]
    | pinf => rw [hmd] at h2; simp [pyToOpt] at h2
    | ninf => rw [hmd] at h2; simp [pyToOpt] at h2
    | nan => rw [hmd] at h2; simp [pyToOpt] at h2

/-- Witness for C4 at the concrete series [1/4, NaN, −1/2], together with
the all-zero case at length 3. -/
theorem claim_C4_witness :
    pyToOpt (max_drawdown [PyNum.num (1/4), PyNum.nan, PyNum.num (-1/2)]) =
        specMaxDrawdown [PyNum.num (1/4), PyNum.nan, PyNum.num (-1/2)] ∧
      max_drawdown (List.replicate 3 (PyNum.num 0)) = PyNum.num 0 :=
  ⟨(claim_C4 _ (by decide)).2.1, (claim_C4 [] (by decide)).2.2.2 3 (by decide)⟩

/-! ### Claims C7 and C5 (compute_metrics error handling) -/

theorem cleanRows_map_extras (rows : List Row) (g : Row → List (PyStr × PyStr)) :
    cleanRows (rows.map (fun r => { r with extras := g r })) = cleanRows rows := by
  unfold cleanRows
  rw [List.filterMap_map]
  rfl

/-- C7: `compute_metrics` on a table missing any of the required Date, Close
or Volume columns returns a raised error (never a result), and the result on
any table is insensitive to the content of columns other than the required
ones (modelled by each row's `extras` payload). -/
theorem claim_C7 :
    (∀ (f : DataFrame) (c : PyStr), c ∈ requiredCols → c ∉ f.cols →
        compute_metrics f =
          .error (missingColsMsg (requiredCols.filter (fun c => ! f.cols.contains c)))) ∧
      ∀ (cols : List PyStr) (rows : List Row) (g : Row → List (PyStr × PyStr)),
        compute_metrics ⟨cols, rows.map (fun r => { r with extras := g r })⟩ =
          compute_metrics ⟨cols, rows⟩ := by
  constructor
  · intro f c hreq hnot
    have hc : c ∈ requiredCols.filter (fun c => ! f.cols.contains c) := by
      rw [List.mem_filter]
      refine ⟨hreq, ?_⟩
      simp [List.contains, hnot]
    have hne : (requiredCols.filter (fun c => ! f.cols.contains c)).isEmpty = false := by
      cases hfe : requiredCols.filter (fun c => ! f.cols.contains c) with
      | nil => rw [hfe] at hc; cases hc
      | cons x xs => rfl
    unfold compute_metrics
    dsimp only
    rw [hne]
    rfl
  · intro cols rows g
    unfold compute_metrics
    rw [cleanRows_map_extras]

/-- Witness for C7: a frame lacking the Volume column is rejected. -/
theorem claim_C7_witness :
    compute_metrics ⟨[pstr "Date", pstr "Close"], []⟩ =
      .error (missingColsMsg (requiredCols.filter
        (fun c => ! ([pstr "Date", pstr "Close"] : List PyStr).contains c))) :=
  claim_C7.1 ⟨[pstr "Date", pstr "Close"], []⟩ (pstr "Volume") (by decide) (by decide)

/-- C5: if, after parsing and cleaning, fewer than two rows survive the drop
of the first (undefined) return, `compute_metrics` returns (without raising)
the undefined marker for all four return-based metrics, and reports
best-effort start and end dates from the surviving rows. -/
theorem claim_C5 (f : DataFrame)
    (hcols : requiredCols.filter (fun c => ! f.cols.contains c) = [])
    (hlen : (dRowsOf (cleanRows f.rows)).length < 2) :
    compute_metrics f =
      .ok ⟨(dRowsOf (cleanRows f.rows)).head?.map (fun x => x.1),
        (dRowsOf (cleanRows f.rows)).getLast?.map (fun x => x.1), none, none, none, none⟩ := by
  unfold compute_metrics
  dsimp only
  rw [hcols]
  show metricsCore (cleanRows f.rows) = _
  unfold metricsCore
  rw [if_pos hlen]

def frameC5 : DataFrame :=
  ⟨[pstr "Date", pstr "Close", pstr "Volume"],
   [⟨some 0, .num 10, .num 1, []⟩, ⟨some 1, .num 20, .num 1, []⟩]⟩

/-- Witness for C5: two valid rows leave one surviving row after the return
drop; its date (day 1) is reported as both start and end, all four metrics
are the undefined marker. -/
theorem claim_C5_witness :
    compute_metrics frameC5 =
        .ok ⟨(dRowsOf (cleanRows frameC5.rows)).head?.map (fun x => x.1),
          (dRowsOf (cleanRows frameC5.rows)).getLast?.map (fun x => x.1),
          none, none, none, none⟩ ∧
      (dRowsOf (cleanRows frameC5.rows)).head?.map (fun x => x.1) = some 1 :=
  ⟨claim_C5 frameC5 (by decide) (by decide), by decide⟩

/-! ### Claim C1 (total return) -/

/-- C1: on any accepted table with at least two rows surviving the full
cleaning (so that the metrics are actually computed), the Total Return
metric is final close / first close − 1, computed over the cleaned rows;
the first close must be nonzero for the ratio to denote (a zero first close
makes the code report the undefined marker instead). -/
theorem claim_C1 (f : DataFrame) (m : Metrics) (a b : ℚ)
    (hok : compute_metrics f = .ok m)
    (hlen : 2 ≤ (dRowsOf (cleanRows f.rows)).length)
    (hfirst : ((dRowsOf (cleanRows f.rows)).headD dummyTriple).2.1 = .num a)
    (hlast : ((dRowsOf (cleanRows f.rows)).getLastD dummyTriple).2.1 = .num b)
    (ha : a ≠ 0) :
    m.totalReturn = some (b / a - 1) := by
  unfold compute_metrics at hok
  dsimp only at hok
  split at hok
  · unfold metricsCore at hok
    dsimp only at hok
    split at hok
    · omega
    · rw [hfirst, hlast] at hok
      have hdiv : pyDiv (PyNum.num b) (PyNum.num a) = .num (b / a) := by simp [pyDiv, ha]
      rw [hdiv, pySub_num] at hok
      have hinj := Except.ok.inj hok
      rw [← hinj]
      rfl
  · exact absurd hok (by simp)

def frameC1 : DataFrame :=
  ⟨[pstr "Date", pstr "Close", pstr "Volume"],
   [⟨some 0, .num 10, .num 1, []⟩, ⟨some 1, .num 20, .num 1, []⟩,
    ⟨some 2, .num 40, .num 1, []⟩]⟩

def mC1 : Metrics := ⟨some 1, some 2, some 1, some (1, 4/1461), some 0, some 0⟩

theorem frameC1_eval : compute_metrics frameC1 = .ok mC1 := by
  norm_num [frameC1, mC1, compute_metrics, metricsCore, cleanRows, dRowsOf, pctChange,
    varPy, meanPy, pySumList, max_drawdown, cumprodAux, cummaxAux, minSkipNan,
    cagrBaseOf, pyToOpt, pyDiv, pySub, pyAdd, pyNeg, pyMul, pyMin, pyMax,
    pyLt, pyIsNan, dummyTriple, requiredCols, List.filter, List.filterMap, List.zipWith,
    List.zip, List.foldl, pstr]

def frameC1n : DataFrame :=
  ⟨[pstr "Date", pstr "Close", pstr "Volume"],
   [⟨some 0, .num 10, .num 1, []⟩, ⟨some 1, .num 20, .num 1, []⟩,
    ⟨some 2, .num (-5), .num 1, []⟩]⟩

def mC1n : Metrics := ⟨some 1, some 2, some (-5/4), none, some (5103/8), some (-5/4)⟩

theorem frameC1n_eval : compute_metrics frameC1n = .ok mC1n := by
  norm_num [frameC1n, mC1n, compute_metrics, metricsCore, cleanRows, dRowsOf, pctChange,
    varPy, meanPy, pySumList, max_drawdown, cumprodAux, cummaxAux, minSkipNan,
    cagrBaseOf, pyToOpt, pyDiv, pySub, pyAdd, pyNeg, pyMul, pyMin, pyMax,
    pyLt, pyIsNan, dummyTriple, requiredCols, List.filter, List.filterMap, List.zipWith,
    List.zip, List.foldl, pstr]

/-- Witness for C1 at two concrete three-row frames: closes 10, 20, 40
(Total Return 40/20 − 1) and closes 10, 20, −5 (Total Return −5/20 − 1 with
the CAGR downgraded to the undefined marker, not an error). -/
theorem claim_C1_witness :
    (2 ≤ (dRowsOf (cleanRows frameC1.rows)).length ∧
        mC1.totalReturn = some ((40 : ℚ) / 20 - 1)) ∧
      2 ≤ (dRowsOf (cleanRows frameC1n.rows)).length ∧
        mC1n.totalReturn = some ((-5 : ℚ) / 20 - 1) :=
  ⟨⟨by decide,
    claim_C1 frameC1 mC1 20 40 frameC1_eval (by decide) (by decide) (by decide) (by decide)⟩,
   by decide,
   claim_C1 frameC1n mC1n 20 (-5) frameC1n_eval (by decide) (by decide) (by decide)
     (by decide)⟩

/-! ### Claim C10 (start date is the second valid row) -/

/-- C10 (amended): on a table with at least two rows valid after date and
close parsing, and whose second valid row has a defined (non-NaN)
period-over-period return — e.g. whenever the first two valid closes are
not both zero — the reported Start date is the date of the second valid
row: the first valid row is removed together with its undefined return
before any metric or date is read. -/
theorem claim_C10 (f : DataFrame) (m : Metrics) (d0 d1 : ℤ) (c0 c1 : PyNum)
    (rest : List (ℤ × PyNum))
    (hcr : cleanRows f.rows = (d0, c0) :: (d1, c1) :: rest)
    (hret : pyIsNan (pySub (pyDiv c1 c0) (.num 1)) = false)
    (hok : compute_metrics f = .ok m) :
    m.startDate = some d1 := by
  have hh : (dRowsOf (cleanRows f.rows)).head?
      = some (d1, c1, pySub (pyDiv c1 c0) (.num 1)) := by
    rw [hcr]
    unfold dRowsOf pctChange
    simp only [List.map_cons, List.zipWith_cons_cons, List.zip_cons_cons,
      List.filterMap_cons]
    rw [show pyIsNan PyNum.nan = true from rfl, hret]
    simp
  obtain ⟨t, hd⟩ : ∃ t, dRowsOf (cleanRows f.rows)
      = (d1, c1, pySub (pyDiv c1 c0) (.num 1)) :: t := by
    rcases hD : dRowsOf (cleanRows f.rows) with _ | ⟨y, t⟩
    · rw [hD] at hh
      cases hh
    · rw [hD] at hh
      simp only [List.head?_cons, Option.some.injEq] at hh
      exact ⟨t, by rw [hh]⟩
  unfold compute_metrics at hok
  dsimp only at hok
  split at hok
  · unfold metricsCore at hok
    dsimp only at hok
    rw [hd] at hok
    split at hok
    · have hinj := Except.ok.inj hok
      rw [← hinj]
      rfl
    · have hinj := Except.ok.inj hok
      rw [← hinj]
      rfl
  · exact absurd hok (by simp)

def frameC10 : DataFrame :=
  ⟨[pstr "Date", pstr "Close", pstr "Volume"],
   [⟨some 0, .num 0, .num 1, []⟩, ⟨some 1, .num 0, .num 1, []⟩]⟩

/-- Counterexample to C10 as stated: a table with two valid rows whose two
closes are both 0.  The second row's return is 0/0 = NaN, so it is dropped
as well; the reported Start is "N/A" (none), not the second valid row's
date (day 1). -/
theorem claim_C10_cex :
    2 ≤ (cleanRows frameC10.rows).length ∧
      (compute_metrics frameC10).map Metrics.startDate = Except.ok none ∧
      (Except.ok (none : Option ℤ) : Except PyStr (Option ℤ)) ≠ Except.ok (some 1) := by
  refine ⟨by decide, by rfl, by simp⟩

/-- Witness for C10 (amended) at two three-row frames, including one whose
last close is negative (closes 10, 20, −5): the second valid row (day 1) is
the reported Start in both. -/
theorem claim_C10_witness : mC1.startDate = some 1 ∧ mC1n.startDate = some 1 :=
  ⟨claim_C10 frameC1 mC1 0 1 (.num 10) (.num 20) [(2, .num 40)] (by decide) (by decide)
     frameC1_eval,
   claim_C10 frameC1n mC1n 0 1 (.num 10) (.num 20) [(2, .num (-5))] (by decide) (by decide)
     frameC1n_eval⟩

/-! ### Claim C9 (scale invariance) -/

def scaleRow (k : ℚ) (r : Row) : Row := ⟨r.date, pyMul (.num k) r.close, r.volume, r.extras⟩

theorem pyMul_pos_pinf (k : ℚ) (hk : 0 < k) : pyMul (.num k) .pinf = .pinf := by
  simp [pyMul, hk.ne', hk]

theorem pyMul_pos_ninf (k : ℚ) (hk : 0 < k) : pyMul (.num k) .ninf = .ninf := by
  simp [pyMul, hk.ne', hk]

theorem pyIsNan_scale (k : ℚ) (hk : 0 < k) (c : PyNum) :
    pyIsNan (pyMul (.num k) c) = pyIsNan c := by
  cases c with
  | num x => rfl
  | pinf => rw [pyMul_pos_pinf k hk]
  | ninf => rw [pyMul_pos_ninf k hk]
  | nan => rfl

theorem pyDiv_scale (k : ℚ) (hk : 0 < k) (a b : PyNum) :
    pyDiv (pyMul (.num k) a) (pyMul (.num k) b) = pyDiv a b := by
  have hk0 : k ≠ 0 := hk.ne'
  have hzero : ∀ x : ℚ, (k * x = 0) ↔ (x = 0) := fun x => by
    constructor
    · intro h
      rcases mul_eq_zero.mp h with h | h
      · exact absurd h hk0
      · exact h
    · intro h
      rw [h, mul_zero]
  have hpos : ∀ x : ℚ, (0 < k * x) ↔ (0 < x) := fun x => mul_pos_iff_of_pos_left hk
  have hnneg : ∀ x : ℚ, (0 ≤ k * x) ↔ (0 ≤ x) := fun x => by
    constructor
    · intro h
      by_contra hneg
      push_neg at hneg
      exact absurd h (not_le.mpr (mul_neg_of_pos_of_neg hk hneg))
    · intro h
      exact mul_nonneg hk.le h
  cases a with
  | num x =>
      cases b with
      | num y =>
          rw [pyMul_num, pyMul_num]
          by_cases hy : y = 0
          · subst hy
            rw [mul_zero]
            by_cases hx : x = 0
            · subst hx
              simp [pyDiv, mul_zero]
            · simp [pyDiv, mul_eq_zero, hk0, hx, hpos x]
          · have hky : k * y ≠ 0 := fun h => hy ((hzero y).mp h)
            simp [pyDiv, hky, hy, mul_div_mul_left x y hk0]
      | pinf => rw [pyMul_num, pyMul_pos_pinf k hk]; rfl
      | ninf => rw [pyMul_num, pyMul_pos_ninf k hk]; rfl
      | nan => rw [pyMul_num]; rfl
  | pinf =>
      cases b with
      | num y =>
          rw [pyMul_pos_pinf k hk, pyMul_num]
          simp [pyDiv, hnneg y]
      | pinf => rw [pyMul_pos_pinf k hk]
      | ninf => rw [pyMul_pos_pinf k hk, pyMul_pos_ninf k hk]
      | nan => rw [pyMul_pos_pinf k hk]; rfl
  | ninf =>
      cases b with
      | num y =>
          rw [pyMul_pos_ninf k hk, pyMul_num]
          simp [pyDiv, hnneg y]
      | pinf => rw [pyMul_pos_ninf k hk, pyMul_pos_pinf k hk]
      | ninf => rw [pyMul_pos_ninf k hk]
      | nan => rw [pyMul_pos_ninf k hk]; rfl
  | nan => rfl

theorem zip_ret_scale (k : ℚ) (hk : 0 < k) : ∀ (xs ys : List PyNum),
    List.zipWith (fun cur prev => pySub (pyDiv cur prev) (.num 1))
        (xs.map (fun c => pyMul (.num k) c)) (ys.map (fun c => pyMul (.num k) c))
      = List.zipWith (fun cur prev => pySub (pyDiv cur prev) (.num 1)) xs ys := by
  intro xs
  induction xs with
  | nil => intro ys; rfl
  | cons x xs ih =>
      intro ys
      cases ys with
      | nil => rfl
      | cons y ys' =>
          simp only [List.map_cons, List.zipWith_cons_cons, ih ys', pyDiv_scale k hk]

theorem pctChange_scale (k : ℚ) (hk : 0 < k) (closes : List PyNum) :
    pctChange (closes.map (fun c => pyMul (.num k) c)) = pctChange closes := by
  cases closes with
  | nil => rfl
  | cons x xs =>
      show PyNum.nan :: List.zipWith _ (xs.map (fun c => pyMul (.num k) c))
          ((x :: xs).map (fun c => pyMul (.num k) c)) = _
      rw [zip_ret_scale k hk]
      rfl

theorem cleanRows_scale (k : ℚ) (hk : 0 < k) (rows : List Row) :
    cleanRows (rows.map (scaleRow k))
      = (cleanRows rows).map (fun pr => (pr.1, pyMul (.num k) pr.2)) := by
  induction rows with
  | nil => rfl
  | cons r rs ih =>
      cases r with
      | mk dte cls vol ext =>
          cases dte with
          | none =>
              show cleanRows (⟨none, pyMul (.num k) cls, vol, ext⟩ :: rs.map (scaleRow k)) = _
              unfold cleanRows at ih ⊢
              simpa [List.filterMap_cons] using ih
          | some d =>
              show cleanRows (⟨some d, pyMul (.num k) cls, vol, ext⟩ :: rs.map (scaleRow k)) = _
              unfold cleanRows at ih ⊢
              cases hnan : pyIsNan cls with
              | true =>
                  simpa [List.filterMap_cons, pyIsNan_scale k hk, hnan] using ih
              | false =>
                  simpa [List.filterMap_cons, pyIsNan_scale k hk, hnan] using ih

theorem dRowsOf_scale (k : ℚ) (hk : 0 < k) (cr : List (ℤ × PyNum)) :
    dRowsOf (cr.map (fun pr => (pr.1, pyMul (.num k) pr.2)))
      = (dRowsOf cr).map (fun t => (t.1, pyMul (.num k) t.2.1, t.2.2)) := by
  unfold dRowsOf
  have hsnd : (cr.map (fun pr => (pr.1, pyMul (.num k) pr.2))).map Prod.snd
      = (cr.map Prod.snd).map (fun c => pyMul (.num k) c) := by
    rw [List.map_map, List.map_map]
    rfl
  rw [hsnd, pctChange_scale k hk]
  dsimp only
  rw [List.zip_map_left, List.filterMap_map, List.map_filterMap]
  congr 1
  funext pr
  cases hnan : pyIsNan pr.2 <;> simp [hnan]

theorem headD_scale_map (k : ℚ) (l : List (ℤ × PyNum × PyNum)) :
    (l.map (fun t => (t.1, pyMul (.num k) t.2.1, t.2.2))).headD dummyTriple
      = ((l.headD dummyTriple).1, pyMul (.num k) (l.headD dummyTriple).2.1,
         (l.headD dummyTriple).2.2) := by
  cases l with
  | nil => rfl
  | cons a t => rfl

theorem getLastD_scale_map (k : ℚ) (l : List (ℤ × PyNum × PyNum)) :
    (l.map (fun t => (t.1, pyMul (.num k) t.2.1, t.2.2))).getLastD dummyTriple
      = ((l.getLastD dummyTriple).1, pyMul (.num k) (l.getLastD dummyTriple).2.1,
         (l.getLastD dummyTriple).2.2) := by
  rw [List.getLastD_eq_getLast?, List.getLastD_eq_getLast?, List.getLast?_map]
  cases l.getLast? with
  | none => rfl
  | some x => rfl

theorem metricsCore_scale (k : ℚ) (hk : 0 < k) (cr : List (ℤ × PyNum)) :
    metricsCore (cr.map (fun pr => (pr.1, pyMul (.num k) pr.2))) = metricsCore cr := by
  unfold metricsCore
  rw [dRowsOf_scale k hk]
  dsimp only
  rw [List.length_map]
  by_cases hlen : (dRowsOf cr).length < 2
  · rw [if_pos hlen, if_pos hlen]
    simp only [List.head?_map, List.getLast?_map, Option.map_map]
    rfl
  · rw [if_neg hlen, if_neg hlen]
    rw [headD_scale_map, getLastD_scale_map]
    have hdrets : ((dRowsOf cr).map (fun t => (t.1, pyMul (.num k) t.2.1, t.2.2))).map
        (fun x => x.2.2) = (dRowsOf cr).map (fun x => x.2.2) := by
      rw [List.map_map]
      rfl
    rw [hdrets]
    dsimp only
    rw [pyDiv_scale k hk]

theorem metrics_scale_eq (f : DataFrame) (k : ℚ) (hk : 0 < k) :
    compute_metrics ⟨f.cols, f.rows.map (scaleRow k)⟩ = compute_metrics f := by
  unfold compute_metrics
  dsimp only
  by_cases hmiss : (requiredCols.filter (fun c => ! f.cols.contains c)).isEmpty = true
  · rw [if_pos hmiss, if_pos hmiss, cleanRows_scale k hk, metricsCore_scale k hk]
  · rw [if_neg hmiss, if_neg hmiss]

/-! ### Claim C9 -/

/-- C9: multiplying every close price by a positive constant k leaves the
computed total return, CAGR (its determining data) and annualized
volatility (its square) unchanged, for every input table. -/
theorem claim_C9 (f : DataFrame) (k : ℚ) (hk : 0 < k) :
    (compute_metrics ⟨f.cols, f.rows.map (scaleRow k)⟩).map Metrics.totalReturn
        = (compute_metrics f).map Metrics.totalReturn ∧
      (compute_metrics ⟨f.cols, f.rows.map (scaleRow k)⟩).map Metrics.cagrBase
        = (compute_metrics f).map Metrics.cagrBase ∧
      (compute_metrics ⟨f.cols, f.rows.map (scaleRow k)⟩).map Metrics.volSq
        = (compute_metrics f).map Metrics.volSq := by
  rw [metrics_scale_eq f k hk]
  exact ⟨rfl, rfl, rfl⟩

/-- Witness for C9: doubling the closes of the concrete three-row frame. -/
theorem claim_C9_witness :
    (compute_metrics ⟨frameC1.cols, frameC1.rows.map (scaleRow 2)⟩).map Metrics.totalReturn
        = (compute_metrics frameC1).map Metrics.totalReturn ∧
      (compute_metrics ⟨frameC1.cols, frameC1.rows.map (scaleRow 2)⟩).map Metrics.cagrBase
        = (compute_metrics frameC1).map Metrics.cagrBase ∧
      (compute_metrics ⟨frameC1.cols, frameC1.rows.map (scaleRow 2)⟩).map Metrics.volSq
        = (compute_metrics frameC1).map Metrics.volSq :=
  claim_C9 frameC1 2 (by norm_num)

/-! ### Claim C6 (provider response errors) -/

theorem build_some_eval (ticker : PyStr) (h : List RawRow) (out : PyStr) :
    build_dashboard_html ticker (some h) out =
      (if h.isEmpty = true then
        Except.error (noDataMsg (normalize_canadian_ticker ticker))
       else if (parseRaw h).isEmpty = true then
        Except.error (unparsedMsg (normalize_canadian_ticker ticker))
       else
        match compute_metrics ⟨[pstr "Date", pstr "Close", pstr "Volume"],
            (parseRaw h).map rawToRow⟩ with
        | .error e => .error e
        | .ok m =>
            .ok ⟨out, normalize_canadian_ticker ticker, (parseRaw h).map (fun r => r.1),
              (parseRaw h).map (fun r => r.2.1), (parseRaw h).map (fun r => r.2.2),
              ma50Of ((parseRaw h).map (fun r => r.2.1)),
              ma200Of ((parseRaw h).map (fun r => r.2.1)),
              pctChange ((parseRaw h).map (fun r => r.2.1)),
              vol30Of ((parseRaw h).map (fun r => r.2.1)), m⟩) := rfl

/-- C6: when the market-data provider returns nothing (None or an empty
table), or a table whose rows are entirely unparseable into numeric
Date/Close/Volume, `build_dashboard_html` raises an error whose message
names the normalized ticker, and no output is produced (there is no
success value carrying the output path). -/
theorem claim_C6 (ticker : PyStr) (hist : Option (List RawRow)) (out : PyStr) :
    ((hist = none ∨ hist = some []) →
        build_dashboard_html ticker hist out =
            .error (noDataMsg (normalize_canadian_ticker ticker)) ∧
          (∃ pre suf, noDataMsg (normalize_canadian_ticker ticker) =
              pre ++ normalize_canadian_ticker ticker ++ suf) ∧
          ∀ o, build_dashboard_html ticker hist out ≠ .ok o) ∧
      ∀ h, hist = some h → h ≠ [] → parseRaw h = [] →
        build_dashboard_html ticker hist out =
            .error (unparsedMsg (normalize_canadian_ticker ticker)) ∧
          (∃ pre suf, unparsedMsg (normalize_canadian_ticker ticker) =
              pre ++ normalize_canadian_ticker ticker ++ suf) ∧
          ∀ o, build_dashboard_html ticker hist out ≠ .ok o := by
  constructor
  · intro hemp
    have herr : build_dashboard_html ticker hist out =
        .error (noDataMsg (normalize_canadian_ticker ticker)) := by
      rcases hemp with rfl | rfl
      · rfl
      · rfl
    refine ⟨herr, ⟨pstr "No price data returned for ticker: ", [], ?_⟩, ?_⟩
    · rw [List.append_nil]
      rfl
    · intro o ho
      rw [herr] at ho
      cases ho
  · intro h hh hne hpar
    subst hh
    have herr : build_dashboard_html ticker (some h) out =
        .error (unparsedMsg (normalize_canadian_ticker ticker)) := by
      have hie : h.isEmpty = false := by
        cases h with
        | nil => exact absurd rfl hne
        | cons a t => rfl
      rw [build_some_eval, hie, hpar]
      rfl
    refine ⟨herr, ⟨pstr "Price data returned for ",
      pstr ", but could not be parsed into numeric Date/Close/Volume.", rfl⟩, ?_⟩
    intro o ho
    rw [herr] at ho
    cases ho

/-- Witness for C6: a None response and a one-row unparseable response for
ticker "xyz". -/
theorem claim_C6_witness :
    build_dashboard_html (pstr "xyz") none (pstr "out.html") =
        .error (noDataMsg (normalize_canadian_ticker (pstr "xyz"))) ∧
      build_dashboard_html (pstr "xyz") (some [⟨none, PyNum.nan, PyNum.nan⟩]) (pstr "out.html") =
        .error (unparsedMsg (normalize_canadian_ticker (pstr "xyz"))) :=
  ⟨((claim_C6 (pstr "xyz") none (pstr "out.html")).1 (Or.inl rfl)).1,
   ((claim_C6 (pstr "xyz") (some [⟨none, PyNum.nan, PyNum.nan⟩]) (pstr "out.html")).2
      [⟨none, PyNum.nan, PyNum.nan⟩] rfl (by decide) (by decide)).1⟩

/-! ### Lemmas for the derived series (claim C2) -/

def allNum (l : List PyNum) : Prop := ∀ x ∈ l, ∃ q, x = PyNum.num q

theorem foldl_pyAdd_allNum (l : List PyNum) : ∀ (_ : allNum l) (a : ℚ),
    ∃ s, l.foldl pyAdd (.num a) = .num s := by
  induction l with
  | nil => exact fun _ a => ⟨a, rfl⟩
  | cons x xs ih =>
      intro hall a
      obtain ⟨q, rfl⟩ := hall x (List.mem_cons_self _ _)
      exact ih (fun y hy => hall y (List.mem_cons_of_mem _ hy)) (a + q)

theorem pySumList_allNum (l : List PyNum) (hall : allNum l) : ∃ s, pySumList l = .num s :=
  foldl_pyAdd_allNum l hall 0

theorem meanPy_allNum (l : List PyNum) (hall : allNum l) (hne : l.length ≠ 0) :
    ∃ m, meanPy l = .num m := by
  obtain ⟨s, hs⟩ := pySumList_allNum l hall
  have hlen : ((l.length : ℚ)) ≠ 0 := Nat.cast_ne_zero.mpr hne
  refine ⟨s / (l.length : ℚ), ?_⟩
  rw [meanPy, hs]
  simp [pyDiv, hlen]

theorem varPy_allNum (l : List PyNum) (hall : allNum l) (h2 : 2 ≤ l.length) :
    ∃ v, varPy l = .num v := by
  obtain ⟨m, hm⟩ := meanPy_allNum l hall (by omega)
  have hdev : allNum (l.map (fun x => pyMul (pySub x (meanPy l)) (pySub x (meanPy l)))) := by
    intro y hy
    obtain ⟨x, hx, rfl⟩ := List.mem_map.mp hy
    obtain ⟨q, rfl⟩ := hall x hx
    rw [hm, pySub_num, pyMul_num]
    exact ⟨_, rfl⟩
  obtain ⟨S, hS⟩ := pySumList_allNum _ hdev
  have hden : ((l.length : ℚ) - 1) ≠ 0 := by
    have h2q : (2:ℚ) ≤ (l.length : ℚ) := by exact_mod_cast h2
    linarith
  refine ⟨S / ((l.length : ℚ) - 1), ?_⟩
  unfold varPy
  rw [if_neg (by omega)]
  dsimp only
  rw [hS]
  simp [pyDiv, hden]

theorem volStat_allNum (l : List PyNum) (hall : allNum l) (h2 : 2 ≤ l.length) :
    ∃ v, volStat l = .num v := by
  obtain ⟨v, hv⟩ := varPy_allNum l hall h2
  exact ⟨v * 252, by rw [volStat, hv, pyMul_num]⟩

theorem rollingStat_length (w : ℕ) (f : List PyNum → PyNum) (xs : List PyNum) :
    (rollingStat w f xs).length = xs.length := by
  simp [rollingStat]

theorem rollingStat_getD (w : ℕ) (f : List PyNum → PyNum) (xs : List PyNum) (i : ℕ)
    (h : i < xs.length) :
    (rollingStat w f xs).getD i PyNum.nan =
      (if i + 1 < w then PyNum.nan
       else if ((xs.drop (i + 1 - w)).take w).any pyIsNan then PyNum.nan
       else f ((xs.drop (i + 1 - w)).take w)) := by
  rw [rollingStat, List.getD_eq_getElem?_getD, List.getElem?_map, List.getElem?_range h]
  rfl

theorem pctChange_length (xs : List PyNum) : (pctChange xs).length = xs.length := by
  cases xs with
  | nil => rfl
  | cons x t =>
      simp only [pctChange, List.length_cons, List.length_zipWith]
      omega

theorem pctChange_getElem_succ (x : PyNum) (t : List PyNum) (j : ℕ) :
    (pctChange (x :: t))[j+1]? =
      (match t[j]?, (x :: t)[j]? with
        | some cur, some prev => some (pySub (pyDiv cur prev) (.num 1))
        | _, _ => none) := by
  have h : (pctChange (x :: t))[j+1]? =
      (List.zipWith (fun cur prev => pySub (pyDiv cur prev) (.num 1)) t (x :: t))[j]? := by
    rw [pctChange, List.getElem?_cons_succ]
  rw [h, List.getElem?_zipWith]
  cases t[j]? <;> cases (x :: t)[j]? <;> rfl

theorem ret_entry_num (qs : List ℚ) (hpos : ∀ q ∈ qs, 0 < q) (j : ℕ)
    (hj1 : 1 ≤ j) (hjn : j < qs.length) :
    ∃ v, (pctChange (qs.map PyNum.num))[j]? = some (PyNum.num v) := by
  cases qs with
  | nil => simp at hjn
  | cons q qt =>
      obtain ⟨j', rfl⟩ : ∃ j', j = j' + 1 := ⟨j - 1, by omega⟩
      rw [List.map_cons, pctChange_getElem_succ]
      have hj't : j' < qt.length := by
        simp only [List.length_cons] at hjn
        omega
      have h1 : (qt.map PyNum.num)[j']? = some (PyNum.num qt[j']) := by
        rw [List.getElem?_map, List.getElem?_eq_getElem hj't]
        rfl
      have h2 : (PyNum.num q :: qt.map PyNum.num)[j']? = some (PyNum.num (q :: qt)[j']) := by
        rw [show (PyNum.num q :: qt.map PyNum.num) = (q :: qt).map PyNum.num from rfl,
          List.getElem?_map,
          List.getElem?_eq_getElem (by simp only [List.length_cons]; omega)]
        rfl
      rw [h1, h2]
      have hprev : (0:ℚ) < (q :: qt)[j'] := hpos _ (List.getElem_mem _)
      refine ⟨qt[j'] / (q :: qt)[j'] - 1, ?_⟩
      simp [pyDiv, hprev.ne', pySub_num]

theorem rollingMean_defined (w : ℕ) (hw1 : 1 ≤ w) (qs : List ℚ) (i : ℕ) (hi : i < qs.length) :
    pyIsNan ((rollingStat w meanPy (qs.map PyNum.num)).getD i PyNum.nan) = true ↔ i + 1 < w := by
  rw [rollingStat_getD w meanPy (qs.map PyNum.num) i (by rw [List.length_map]; exact hi)]
  by_cases hw : i + 1 < w
  · rw [if_pos hw]
    exact iff_of_true rfl hw
  · rw [if_neg hw]
    have hno : (((qs.map PyNum.num).drop (i + 1 - w)).take w).any pyIsNan = false := by
      rw [List.any_eq_false]
      intro x hx
      obtain ⟨q, _, rfl⟩ := List.mem_map.mp (List.mem_of_mem_drop (List.mem_of_mem_take hx))
      simp [pyIsNan]
    rw [hno]
    have hallnum : allNum (((qs.map PyNum.num).drop (i + 1 - w)).take w) := by
      intro x hx
      obtain ⟨q, _, rfl⟩ := List.mem_map.mp (List.mem_of_mem_drop (List.mem_of_mem_take hx))
      exact ⟨q, rfl⟩
    have hlen : (((qs.map PyNum.num).drop (i + 1 - w)).take w).length ≠ 0 := by
      rw [List.length_take, List.length_drop, List.length_map]
      omega
    obtain ⟨m, hm⟩ := meanPy_allNum _ hallnum hlen
    rw [if_neg (by simp), hm]
    exact iff_of_false (by simp [pyIsNan]) hw

theorem ret_defined (qs : List ℚ) (hpos : ∀ q ∈ qs, 0 < q) : ∀ i, i < qs.length →
    (pyIsNan ((pctChange (qs.map PyNum.num)).getD i PyNum.nan) = true ↔ i < 1) := by
  intro i hi
  cases qs with
  | nil => simp at hi
  | cons q qt =>
      cases i with
      | zero =>
          rw [List.map_cons]
          exact iff_of_true rfl (by omega)
      | succ j =>
          rw [List.getD_eq_getElem?_getD]
          obtain ⟨v, hv⟩ := ret_entry_num (q :: qt) hpos (j + 1) (by omega) hi
          rw [hv]
          exact iff_of_false (by simp [pyIsNan]) (by omega)

theorem vol30_defined (qs : List ℚ) (hpos : ∀ q ∈ qs, 0 < q) : ∀ i, i < qs.length →
    (pyIsNan ((vol30Of (qs.map PyNum.num)).getD i PyNum.nan) = true ↔ i < 30) := by
  intro i hi
  have hlenr : (pctChange (qs.map PyNum.num)).length = qs.length := by
    rw [pctChange_length, List.length_map]
  show pyIsNan ((rollingStat 30 volStat (pctChange (qs.map PyNum.num))).getD i PyNum.nan)
      = true ↔ i < 30
  rw [rollingStat_getD 30 volStat _ i (by rw [hlenr]; exact hi)]
  by_cases hw : i + 1 < 30
  · rw [if_pos hw]
    exact iff_of_true rfl (by omega)
  · rw [if_neg hw]
    by_cases h30 : i < 30
    · have hi29 : i = 29 := by omega
      subst hi29
      have hxs0 : (pctChange (qs.map PyNum.num))[0]? = some PyNum.nan := by
        cases qs with
        | nil => simp at hi
        | cons q qt =>
            rw [List.map_cons]
            simp [pctChange]
      have hany : (((pctChange (qs.map PyNum.num)).drop (29 + 1 - 30)).take 30).any pyIsNan
          = true := by
        rw [List.any_eq_true]
        refine ⟨PyNum.nan, @List.getElem?_mem _ _ 0 _ ?_, rfl⟩
        rw [List.getElem?_take_of_lt (by omega), List.getElem?_drop]
        simpa using hxs0
      rw [hany]
      exact iff_of_true rfl (by omega)
    · have hentry : ∀ j, j < 30 →
          ∃ v, (((pctChange (qs.map PyNum.num)).drop (i + 1 - 30)).take 30)[j]?
            = some (PyNum.num v) := by
        intro j hj
        rw [List.getElem?_take_of_lt hj, List.getElem?_drop]
        exact ret_entry_num qs hpos (i + 1 - 30 + j) (by omega) (by omega)
      have hwlen : (((pctChange (qs.map PyNum.num)).drop (i + 1 - 30)).take 30).length = 30 := by
        rw [List.length_take, List.length_drop, hlenr]
        omega
      have hallnum : allNum (((pctChange (qs.map PyNum.num)).drop (i + 1 - 30)).take 30) := by
        intro x hx
        obtain ⟨j, hj⟩ := List.mem_iff_getElem?.mp hx
        have hjlt : j < 30 := by
          by_contra hge
          rw [List.getElem?_eq_none (by omega)] at hj
          cases hj
        obtain ⟨v, hv⟩ := hentry j hjlt
        rw [hv] at hj
        exact ⟨v, (Option.some.inj hj).symm⟩
      have hno : (((pctChange (qs.map PyNum.num)).drop (i + 1 - 30)).take 30).any pyIsNan
          = false := by
        rw [List.any_eq_false]
        intro x hx
        obtain ⟨v, rfl⟩ := hallnum x hx
        simp [pyIsNan]
      rw [hno]
      obtain ⟨v, hv⟩ := volStat_allNum _ hallnum (by omega)
      rw [if_neg (by simp), hv]
      exact iff_of_false (by simp [pyIsNan]) h30

/-! ### Claim C2 -/

/-- C2 (amended): on a cleaned price series of positive closes, the four
derived series all have the length of the close series (aligned to the same
date index), and exactly the first 49 entries of MA50, the first 199 entries
of MA200, the first entry of the daily return, and the first **30** entries
of the 30-day rolling volatility are undefined (NaN): the volatility window
at index 29 contains the undefined first return, so its first defined entry
is at index 30, not 29 as the spec states. -/
theorem claim_C2 (qs : List ℚ) (hpos : ∀ q ∈ qs, 0 < q) :
    (ma50Of (qs.map PyNum.num)).length = qs.length ∧
      (ma200Of (qs.map PyNum.num)).length = qs.length ∧
      (pctChange (qs.map PyNum.num)).length = qs.length ∧
      (vol30Of (qs.map PyNum.num)).length = qs.length ∧
      (∀ i, i < qs.length →
        (pyIsNan ((ma50Of (qs.map PyNum.num)).getD i PyNum.nan) = true ↔ i < 49)) ∧
      (∀ i, i < qs.length →
        (pyIsNan ((ma200Of (qs.map PyNum.num)).getD i PyNum.nan) = true ↔ i < 199)) ∧
      (∀ i, i < qs.length →
        (pyIsNan ((pctChange (qs.map PyNum.num)).getD i PyNum.nan) = true ↔ i < 1)) ∧
      (∀ i, i < qs.length →
        (pyIsNan ((vol30Of (qs.map PyNum.num)).getD i PyNum.nan) = true ↔ i < 30)) := by
  refine ⟨?_, ?_, ?_, ?_, ?_, ?_, ret_defined qs hpos, vol30_defined qs hpos⟩
  · rw [ma50Of, rollingStat_length, List.length_map]
  · rw [ma200Of, rollingStat_length, List.length_map]
  · rw [pctChange_length, List.length_map]
  · rw [vol30Of, rollingStat_length, pctChange_length, List.length_map]
  · intro i hi
    rw [ma50Of, rollingMean_defined 50 (by omega) qs i hi]
    omega
  · intro i hi
    rw [ma200Of, rollingMean_defined 200 (by omega) qs i hi]
    omega

def closesC2 : List PyNum :=
  [.num 1, .num 2, .num 3, .num 4, .num 5, .num 6, .num 7, .num 8, .num 9, .num 10,
   .num 11, .num 12, .num 13, .num 14, .num 15, .num 16, .num 17, .num 18, .num 19, .num 20,
   .num 21, .num 22, .num 23, .num 24, .num 25, .num 26, .num 27, .num 28, .num 29, .num 30]

/-- Counterexample to C2 as stated: on a 30-session cleaned series of
positive closes, the Vol30 entry at index 29 — which the claim asserts to be
the first defined one — is still undefined, because its 30-entry window
contains the NaN first return. -/
theorem claim_C2_cex :
    ¬ (∀ i, i < (vol30Of closesC2).length →
        (pyIsNan ((vol30Of closesC2).getD i PyNum.nan) = true ↔ i < 29)) := by
  decide

def qsC2 : List ℚ := [1, 2]

/-- Witness for C2 (amended) at the concrete two-entry close series [1, 2]. -/
theorem claim_C2_witness :
    (ma50Of (qsC2.map PyNum.num)).length = qsC2.length ∧
      (ma200Of (qsC2.map PyNum.num)).length = qsC2.length ∧
      (pctChange (qsC2.map PyNum.num)).length = qsC2.length ∧
      (vol30Of (qsC2.map PyNum.num)).length = qsC2.length ∧
      (∀ i, i < qsC2.length →
        (pyIsNan ((ma50Of (qsC2.map PyNum.num)).getD i PyNum.nan) = true ↔ i < 49)) ∧
      (∀ i, i < qsC2.length →
        (pyIsNan ((ma200Of (qsC2.map PyNum.num)).getD i PyNum.nan) = true ↔ i < 199)) ∧
      (∀ i, i < qsC2.length →
        (pyIsNan ((pctChange (qsC2.map PyNum.num)).getD i PyNum.nan) = true ↔ i < 1)) ∧
      (∀ i, i < qsC2.length →
        (pyIsNan ((vol30Of (qsC2.map PyNum.num)).getD i PyNum.nan) = true ↔ i < 30)) :=
  claim_C2 qsC2 (by decide)
